import Mathlib

/-!
Shallow embedding of the yamlfix fixture library (Go) and verification of
its specification claims.

The embedding models:
- Go scalar values (`interface{}` holding YAML scalars) as `GoValue`;
- Go maps as association lists with Go assignment semantics (`mapInsert`);
- Go map *iteration order*, which the Go language leaves unspecified, as an
  explicit `iter : List String` parameter constrained in theorems to
  enumerate exactly the map's keys;
- the database driver as explicit result parameters (`Driver`) and a trace
  of driver-level events.
-/

namespace Yamlfix

/-- A Go `interface{}` value decoded from YAML: scalar or null.
Missing-key map access in Go yields `nil`, modelled here as `GoValue.null`. -/
inductive GoValue
  | null
  | int (n : Int)
  | str (s : String)
  | bool (b : Bool)
  deriving DecidableEq, Repr

/-- A row: Go `map[string]interface{}` represented as an association list. -/
abbrev Row := List (String × GoValue)

/-- A table: Go `[]map[string]interface{}`. -/
abbrev Table := List Row

/-- The keys of an association-list map, in list order. -/
def mapKeys {α : Type} (m : List (String × α)) : List String :=
  m.map (fun p => p.1)

/-- Go map read `m[k]` (present case): first binding for `k`. -/
def mapLookup {α : Type} (m : List (String × α)) (k : String) : Option α :=
  (m.find? (fun p => p.1 = k)).map (fun p => p.2)

/-- Go map assignment `m[k] = v`: overwrite the binding for `k` if present
(maps hold at most one binding per key), otherwise add a new binding. -/
def mapInsert {α : Type} : List (String × α) → String → α → List (String × α)
  | [], k, v => [(k, v)]
  | p :: rest, k, v =>
    if p.1 = k then (k, v) :: rest else p :: mapInsert rest k v

/-- A transaction handle (`*sql.Tx`), identified by an id. -/
abbrev TxHandle := Nat

/-- The `Fixture` struct. `db` is implicit (the driver is passed as explicit
result parameters where its behavior matters). `tx == nil` is `none`. -/
structure Fixture where
  tx : Option TxHandle
  tableOrder : List String
  fixtures : List (String × Table)
  autoRollback : Bool
  deriving DecidableEq, Repr

/-- The `Config` struct (the `DB` field is implicit in this model). -/
structure Config where
  autoRollback : Bool
  deriving DecidableEq, Repr

/-- `New`: fresh fixture with empty map, nil transaction, nil table order. -/
def New (config : Config) : Fixture :=
  { tx := none
    tableOrder := []
    fixtures := []
    autoRollback := config.autoRollback }

/-- `updateTableOrder`: appends to `tableOrder` every fixtures-map key not
already present. `iter` models the Go `range` iteration order over
`f.fixtures`, which the Go language leaves unspecified; theorems constrain it
to enumerate exactly the keys of the map. The membership test uses the
`existingTables` set computed before the loop, exactly as in the source. -/
def updateTableOrder (tableOrder : List String) (iter : List String) :
    List String :=
  tableOrder ++ iter.filter (fun t => ¬ tableOrder.contains t)

/-- `loadMultiTableData`: merge every entry of the decoded mapping into the
fixtures map, then update the table order. `iter` models the iteration order
of the `range f.fixtures` loop inside `updateTableOrder`. -/
def loadMultiTableData (f : Fixture) (yamlData : List (String × Table))
    (iter : List String) : Fixture :=
  let fixtures := yamlData.foldl (fun m p => mapInsert m p.1 p.2) f.fixtures
  { f with
    fixtures := fixtures
    tableOrder := updateTableOrder f.tableOrder iter }

/-- `loadSingleTableData`: replace the row set for `tableName`, then update
the table order. -/
def loadSingleTableData (f : Fixture) (tableName : String) (records : Table)
    (iter : List String) : Fixture :=
  { f with
    fixtures := mapInsert f.fixtures tableName records
    tableOrder := updateTableOrder f.tableOrder iter }

/-- `isMultiTableFormat`: a decoded mapping counts as multi-table iff it is
non-empty. -/
def isMultiTableFormat (data : List (String × Table)) : Bool :=
  data.length > 0

/-- Drop trailing path separators (Unix), as in Go `filepath.Base`. -/
def dropTrailingSlashes (cs : List Char) : List Char :=
  ((cs.reverse).dropWhile (fun c => c = '/')).reverse

/-- Go `filepath.Base` (Unix): last element of the path after stripping
trailing separators; `"."` for the empty path, `"/"` for all-separators. -/
def goBase (path : String) : String :=
  if path = "" then "." else
  let cs := dropTrailingSlashes path.toList
  if cs = [] then "/" else
  String.mk (((cs.reverse).takeWhile (fun c => c ≠ '/')).reverse)

/-- Helper for `goExt`: walk the reversed character list, collecting until
the last dot of the final path element is found. -/
def goExtRev : List Char → List Char → String
  | [], _ => ""
  | c :: rest, acc =>
    if c = '/' then ""
    else if c = '.' then String.mk ('.' :: acc)
    else goExtRev rest (c :: acc)

/-- Go `filepath.Ext`: the suffix beginning at the final dot in the final
path element; empty if there is no dot. -/
def goExt (path : String) : String :=
  goExtRev path.toList.reverse []

/-- Go `strings.TrimSuffix`: drop `suffix` from the end of `s` if present
(computed on character lists). -/
def goTrimSuffix (s suffix : String) : String :=
  if suffix.toList.isSuffixOf s.toList then
    String.mk (s.toList.take (s.toList.length - suffix.toList.length))
  else s

/-- `extractTableNameFromFilename`: empty for an empty filename, otherwise
the base name with its extension removed. -/
def extractTableNameFromFilename (filename : String) : String :=
  if filename = "" then ""
  else
    let base := goBase filename
    let ext := goExt base
    goTrimSuffix base ext

/-- A YAML document, abstracted to the two decode attempts the source makes:
`asMulti` is the result of `yaml.Unmarshal` into
`map[string][]map[string]interface{}` (`none` = parse error) and `asSingle`
the result of unmarshalling into `[]map[string]interface{}`. -/
structure YamlDoc where
  asMulti : Option (List (String × Table))
  asSingle : Option Table
  deriving DecidableEq, Repr

/-- Errors a load can produce, following the source error taxonomy:
`decodeError` is the YAML parse failure, `nameInferenceError` the missing
table-name hint, `readError` an `os.ReadFile` failure. -/
inductive LoadError
  | decodeError
  | nameInferenceError
  | readError
  deriving DecidableEq, Repr

/-- The single-table branch of `LoadFromYAMLWithFilename` (everything after
the multi-table attempt is rejected). -/
def loadSingleBranch (f : Fixture) (doc : YamlDoc) (filename : String)
    (iter : List String) : Except LoadError Fixture :=
  match doc.asSingle with
  | none => .error .decodeError
  | some singleTableData =>
    let tableName := extractTableNameFromFilename filename
    if tableName = "" then .error .nameInferenceError
    else .ok (loadSingleTableData f tableName singleTableData iter)

/-- `LoadFromYAMLWithFilename`: try the multi-table interpretation first;
if it parses as a non-empty mapping, merge every table entry; otherwise try
the single-table interpretation, deriving the table name from the filename. -/
def LoadFromYAMLWithFilename (f : Fixture) (doc : YamlDoc) (filename : String)
    (iter : List String) : Except LoadError Fixture :=
  match doc.asMulti with
  | some multiTableData =>
    if isMultiTableFormat multiTableData then
      .ok (loadMultiTableData f multiTableData iter)
    else loadSingleBranch f doc filename iter
  | none => loadSingleBranch f doc filename iter

/-- `LoadFromYAML`: load with no filename hint. -/
def LoadFromYAML (f : Fixture) (doc : YamlDoc) (iter : List String) :
    Except LoadError Fixture :=
  LoadFromYAMLWithFilename f doc "" iter

/-- `LoadFromFile`: read the file (`readResult`, `none` = read error), then
load with the file path as the filename hint. -/
def LoadFromFile (f : Fixture) (readResult : Option YamlDoc) (path : String)
    (iter : List String) : Except LoadError Fixture :=
  match readResult with
  | none => .error .readError
  | some data => LoadFromYAMLWithFilename f data path iter

/-- The execution surface returned by `getExecutor`: either the live
transaction handle or the raw database connection. -/
inductive ExecTarget
  | tx (h : TxHandle)
  | db
  deriving DecidableEq, Repr

/-- `getExecutor`: the transaction when one is open, otherwise the raw
database connection. -/
def getExecutor (f : Fixture) : ExecTarget :=
  match f.tx with
  | some h => .tx h
  | none => .db

/-- One `executor.Exec` call made by the insertion engine: against which
surface, for which table, with which statement text and parameter values. -/
structure ExecEvent where
  target : ExecTarget
  table : String
  query : String
  values : List GoValue
  deriving DecidableEq, Repr

/-- The driver's verdict on one statement execution: `none` = success,
`some msg` = the driver error message. -/
abbrev Exec := String → List GoValue → Option String

/-- The INSERT statement text built by `insertTable`. -/
def buildQuery (tableName : String) (columns : List String) : String :=
  "INSERT INTO " ++ tableName ++ " (" ++ String.intercalate ", " columns ++
    ") VALUES (" ++
    String.intercalate ", " (columns.map (fun _ => "?")) ++ ")"

/-- The parameter values for one record: each derived column's value, with
a missing column yielding Go `nil` (here `GoValue.null`), exactly as a Go
map read of an absent key does. -/
def recordValues (columns : List String) (record : Row) : List GoValue :=
  columns.map (fun col => (mapLookup record col).getD GoValue.null)

/-- The per-record insertion loop of `insertTable`: execute the statement
once per record, stopping at the first driver error (wrapped as in the
source). Returns the trace of attempted executions and the error, if any. -/
def insertRows (exec : Exec) (tgt : ExecTarget) (tableName : String)
    (query : String) (columns : List String) :
    List Row → List ExecEvent × Option String
  | [] => ([], none)
  | record :: rest =>
    let values := recordValues columns record
    let ev : ExecEvent := ⟨tgt, tableName, query, values⟩
    match exec query values with
    | some err => ([ev], some ("レコード挿入エラー: " ++ err))
    | none =>
      let r := insertRows exec tgt tableName query columns rest
      (ev :: r.1, r.2)

/-- `insertTable`: nothing for an empty record list; otherwise derive the
column list from the first record, build one statement, and run it once per
record. (The Go source enumerates the first record's keys by map `range`;
the association list stores exactly those keys and the model fixes this one
enumeration — no claim depends on the column enumeration order.) -/
def insertTable (exec : Exec) (tgt : ExecTarget) (tableName : String) :
    List Row → List ExecEvent × Option String
  | [] => ([], none)
  | record₀ :: rest =>
    let columns := mapKeys record₀
    let query := buildQuery tableName columns
    insertRows exec tgt tableName query columns (record₀ :: rest)

/-- The loop of `InsertFixtures` over `tableOrder`: skip tables with zero
rows, insert the others in order, and return on the first error, wrapped
with the offending table name. -/
def insertAllTables (exec : Exec) (tgt : ExecTarget)
    (fixtures : List (String × Table)) :
    List String → List ExecEvent × Option String
  | [] => ([], none)
  | tableName :: rest =>
    let records := (mapLookup fixtures tableName).getD []
    if records.length = 0 then insertAllTables exec tgt fixtures rest
    else
      match insertTable exec tgt tableName records with
      | (tr, some err) =>
        (tr, some ("テーブル " ++ tableName ++ " への挿入エラー: " ++ err))
      | (tr, none) =>
        let r := insertAllTables exec tgt fixtures rest
        (tr ++ r.1, r.2)

/-- `InsertFixtures`: insert every stored table, in table order, through the
executor chosen by `getExecutor`. -/
def InsertFixtures (exec : Exec) (f : Fixture) :
    List ExecEvent × Option String :=
  insertAllTables exec (getExecutor f) f.fixtures f.tableOrder

/-- `BeginTransaction`: state error if a transaction is already open;
otherwise consult the driver (`beginResult`) and store the new handle.
Returns the new state and the error, if any. -/
def BeginTransaction (f : Fixture) (beginResult : Except String TxHandle) :
    Fixture × Option String :=
  match f.tx with
  | some _ => (f, some "すでにトランザクションが開始されています")
  | none =>
    match beginResult with
    | .error e => (f, some ("トランザクション開始エラー: " ++ e))
    | .ok t => ({ f with tx := some t }, none)

/-- `CommitTransaction`: state error if no transaction is open; otherwise
clear the stored handle unconditionally and return the driver's commit
verdict (`commitResult`). -/
def CommitTransaction (f : Fixture) (commitResult : Option String) :
    Fixture × Option String :=
  match f.tx with
  | none => (f, some "トランザクションが開始されていません")
  | some _ => ({ f with tx := none }, commitResult)

/-- `RollbackTransaction`: state error if no transaction is open; otherwise
clear the stored handle unconditionally and return the driver's rollback
verdict (`rollbackResult`). -/
def RollbackTransaction (f : Fixture) (rollbackResult : Option String) :
    Fixture × Option String :=
  match f.tx with
  | none => (f, some "トランザクションが開始されていません")
  | some _ => ({ f with tx := none }, rollbackResult)

/-- `CleanUp`: roll back only when auto-rollback is configured and a
transaction is open; otherwise do nothing and return nil. -/
def CleanUp (f : Fixture) (rollbackResult : Option String) :
    Fixture × Option String :=
  if f.autoRollback ∧ f.tx ≠ none then RollbackTransaction f rollbackResult
  else (f, none)

/-- The database driver's responses, passed explicitly: the result of
`db.Begin()`, the per-statement verdict of `Exec`, and the verdicts of
`tx.Commit()` and `tx.Rollback()`. -/
structure Driver where
  beginResult : Except String TxHandle
  exec : Exec
  commitResult : Option String
  rollbackResult : Option String

/-- One observable event of an orchestrated run: a driver-level transaction
operation, a statement execution, or the invocation of a caller callback. -/
inductive RunEvent
  | beginTx (h : TxHandle)
  | stmt (e : ExecEvent)
  | setupCall
  | testCall
  | commitTx (h : TxHandle)
  | rollbackTx (h : TxHandle)
  deriving DecidableEq, Repr

/-- Outcome of `WithTransaction`: final state, returned error, event trace. -/
structure RunResult where
  state : Fixture
  err : Option String
  events : List RunEvent
  deriving DecidableEq, Repr

/-- The deferred finalizer `if f.autoRollback { f.RollbackTransaction() }`:
its driver rollback happens only when a transaction is still open (otherwise
`RollbackTransaction` returns a state error without touching the driver);
any error it produces is discarded. -/
def deferredRollback (f : Fixture) (dr : Driver) :
    Fixture × List RunEvent :=
  if f.autoRollback then
    match f.tx with
    | some h => ((RollbackTransaction f dr.rollbackResult).1, [.rollbackTx h])
    | none => (f, [])
  else (f, [])

/-- `WithTransaction`: begin, insert fixtures, run the callback (`fnResult`
is its error), then commit in non-auto-rollback mode; explicit rollback on
insertion or callback failure; deferred rollback in auto-rollback mode. -/
def WithTransaction (f : Fixture) (dr : Driver) (fnResult : Option String) :
    RunResult :=
  match BeginTransaction f dr.beginResult with
  | (f₁, some e) => ⟨f₁, some e, []⟩
  | (f₁, none) =>
    match f₁.tx with
    | none => ⟨f₁, none, []⟩
    | some h =>
      let ins := InsertFixtures dr.exec f₁
      let stmtEvs := ins.1.map RunEvent.stmt
      match ins.2 with
      | some e =>
        let f₂ := (RollbackTransaction f₁ dr.rollbackResult).1
        let d := deferredRollback f₂ dr
        ⟨d.1, some e, (.beginTx h :: stmtEvs ++ [.rollbackTx h]) ++ d.2⟩
      | none =>
        match fnResult with
        | some e =>
          let f₂ := (RollbackTransaction f₁ dr.rollbackResult).1
          let d := deferredRollback f₂ dr
          ⟨d.1, some e,
            (.beginTx h :: stmtEvs ++ [.testCall, .rollbackTx h]) ++ d.2⟩
        | none =>
          if f₁.autoRollback then
            let d := deferredRollback f₁ dr
            ⟨d.1, none, (.beginTx h :: stmtEvs ++ [.testCall]) ++ d.2⟩
          else
            let c := CommitTransaction f₁ dr.commitResult
            let d := deferredRollback c.1 dr
            ⟨d.1, c.2,
              (.beginTx h :: stmtEvs ++ [.testCall, .commitTx h]) ++ d.2⟩

/-- Outcome of a test-helper run: final state, the `t.Fatalf` message if the
run was aborted, and the event trace. -/
structure TestRunResult where
  state : Fixture
  fatal : Option String
  events : List RunEvent
  deriving DecidableEq, Repr

/-- `NewTestFixture` always configures auto-rollback. -/
def NewTestFixture : Fixture :=
  New { autoRollback := true }

/-- `RunTestWithSetup` (testing.go): begin (fatal on error; the finalizer is
not yet registered there), optionally run `setupFn`, insert fixtures (fatal
on error), run `testFn`; the deferred finalizer rolls back iff auto-rollback
is configured — there is no commit path. `setupAborts` / `testAborts` model
the callbacks terminating the test via `t.Fatalf` (Goexit runs the deferred
finalizer). -/
def RunTestWithSetup (f : Fixture) (dr : Driver) (hasSetup : Bool)
    (setupAborts : Bool) (testAborts : Bool) : TestRunResult :=
  match BeginTransaction f dr.beginResult with
  | (f₁, some e) => ⟨f₁, some ("failed to start transaction: " ++ e), []⟩
  | (f₁, none) =>
    match f₁.tx with
    | none => ⟨f₁, none, []⟩
    | some h =>
      if hasSetup ∧ setupAborts then
        let d := deferredRollback f₁ dr
        ⟨d.1, some "setupFn aborted", (.beginTx h :: [.setupCall]) ++ d.2⟩
      else
        let setupEvs : List RunEvent := if hasSetup then [.setupCall] else []
        let ins := InsertFixtures dr.exec f₁
        let stmtEvs := ins.1.map RunEvent.stmt
        match ins.2 with
        | some e =>
          let d := deferredRollback f₁ dr
          ⟨d.1, some ("failed to insert fixtures: " ++ e),
            (.beginTx h :: setupEvs ++ stmtEvs) ++ d.2⟩
        | none =>
          let d := deferredRollback f₁ dr
          ⟨d.1, if testAborts then some "testFn aborted" else none,
            (.beginTx h :: setupEvs ++ stmtEvs ++ [.testCall]) ++ d.2⟩

/-- Legacy passthrough `ExecInTransaction`: run a statement against whatever
surface `getExecutor` currently returns; fatal on driver error. -/
def ExecInTransaction (f : Fixture) (exec : Exec) (query : String)
    (args : List GoValue) : ExecTarget × Option String :=
  let executor := getExecutor f
  match exec query args with
  | some e => (executor, some ("SQL実行エラー: " ++ e))
  | none => (executor, none)

/-- Legacy passthrough `QueryInTransaction`: same surface selection, fatal
on driver error. -/
def QueryInTransaction (f : Fixture) (queryVerdict : Exec) (query : String)
    (args : List GoValue) : ExecTarget × Option String :=
  let executor := getExecutor f
  match queryVerdict query args with
  | some e => (executor, some ("クエリ実行エラー: " ++ e))
  | none => (executor, none)

/-- Legacy passthrough `QueryRowInTransaction`: `QueryRow` has no error
path, so only the chosen surface is observable. -/
def QueryRowInTransaction (f : Fixture) (_query : String)
    (_args : List GoValue) : ExecTarget :=
  getExecutor f

/-- The store invariant maintained by the load operations: the order list
has no duplicates and lists exactly the keys of the fixtures map. -/
def StoreInv (f : Fixture) : Prop :=
  f.tableOrder.Nodup ∧ ∀ t : String, t ∈ f.tableOrder ↔ t ∈ mapKeys f.fixtures

/-- The trace of executions the insertion engine performs for one table when
every execution succeeds: nothing for an empty row set; otherwise one
statement — its column list derived from the first row — executed once per
row, a missing column supplying `GoValue.null`. -/
def tableTrace (tgt : ExecTarget) (tableName : String) :
    List Row → List ExecEvent
  | [] => []
  | record₀ :: rest =>
    (record₀ :: rest).map (fun r =>
      ⟨tgt, tableName, buildQuery tableName (mapKeys record₀),
        recordValues (mapKeys record₀) r⟩)

/-! ### Concrete instances used in counterexamples and witnesses -/

/-- A driver whose statement executions all succeed. -/
def execOkAll : Exec := fun _ _ => none

/-- A multi-table document holding a `users` table then a `posts` table (in
document-appearance order), as decoded by the multi-table attempt. -/
def multiDocUP : YamlDoc :=
  { asMulti := some
      [("users", [[("id", GoValue.int 1)]]),
       ("posts", [[("id", GoValue.int 1), ("user_id", GoValue.int 1)]])]
    asSingle := none }

/-- A map iteration order enumerating the two keys of `multiDocUP` in the
order opposite to their appearance in the document — a legal Go map
iteration order, since Go leaves map iteration order unspecified. -/
def c1Iter : List String := ["posts", "users"]

/-- The store after loading `multiDocUP` when the map iteration happens to
enumerate `posts` before `users`. -/
def c1Loaded : Fixture :=
  loadMultiTableData NewTestFixture
    [("users", [[("id", GoValue.int 1)]]),
     ("posts", [[("id", GoValue.int 1), ("user_id", GoValue.int 1)]])]
    c1Iter

/-- Two fixture rows for a `users` table. -/
def usersRows : Table :=
  [[("id", GoValue.int 1), ("name", GoValue.str "Alice")],
   [("id", GoValue.int 2), ("name", GoValue.str "Bob")]]

/-- Two fixture rows for a `posts` table. -/
def postsRows : Table :=
  [[("id", GoValue.int 1), ("user_id", GoValue.int 1)],
   [("id", GoValue.int 2), ("user_id", GoValue.int 2)]]

/-- A store with `users` (2 rows) and `posts` (2 rows) loaded in that
order, as two single-table loads. -/
def storeUP : Fixture :=
  loadSingleTableData
    (loadSingleTableData NewTestFixture "users" usersRows ["users"])
    "posts" postsRows ["users", "posts"]

/-- A store whose single `users` table has a second row missing the `name`
column derived from the first row. -/
def storeMissingCol : Fixture :=
  loadSingleTableData NewTestFixture "users"
    [[("id", GoValue.int 1), ("name", GoValue.str "Alice")],
     [("id", GoValue.int 2)]]
    ["users"]

/-- A driver for lifecycle runs: begin yields handle 1, every statement
succeeds, commit and rollback succeed. -/
def driverOk : Driver :=
  { beginResult := .ok 1
    exec := execOkAll
    commitResult := none
    rollbackResult := none }

/-- A driver whose executions fail on any statement mentioning `posts`. -/
def execFailPosts : Exec := fun q _ =>
  if q = buildQuery "posts" ["id", "user_id"] then some "constraint violation"
  else none

/-! ### Map and table-order lemmas -/

theorem mapLookup_mapInsert_self {α : Type} (m : List (String × α))
    (k : String) (v : α) : mapLookup (mapInsert m k v) k = some v := by
  induction m with
  | nil => simp [mapInsert, mapLookup]
  | cons p rest ih =>
    by_cases hp : p.1 = k
    · simp [mapInsert, hp, mapLookup]
    · simp only [mapInsert, if_neg hp]
      simp only [mapLookup, List.find?] at ih ⊢
      simp [hp, ih]

theorem mapLookup_mapInsert_of_ne {α : Type} (m : List (String × α))
    (k q : String) (v : α) (hne : q ≠ k) :
    mapLookup (mapInsert m k v) q = mapLookup m q := by
  induction m with
  | nil =>
    simp [mapInsert, mapLookup, List.find?, Ne.symm hne]
  | cons p rest ih =>
    by_cases hp : p.1 = k
    · simp only [mapInsert, if_pos hp]
      simp only [mapLookup, List.find?]
      rw [hp]
      simp [Ne.symm hne]
    · simp only [mapInsert, if_neg hp]
      simp only [mapLookup, List.find?] at ih ⊢
      by_cases hq : p.1 = q
      · simp [hq]
      · simp [hq, ih]

theorem mem_mapKeys_mapInsert {α : Type} (m : List (String × α))
    (k t : String) (v : α) :
    t ∈ mapKeys (mapInsert m k v) ↔ t = k ∨ t ∈ mapKeys m := by
  induction m with
  | nil => simp [mapInsert, mapKeys]
  | cons p rest ih =>
    by_cases hp : p.1 = k
    · simp only [mapInsert, if_pos hp, mapKeys, List.map_cons, List.mem_cons]
      rw [hp]
      tauto
    · simp only [mapInsert, if_neg hp, mapKeys, List.map_cons, List.mem_cons]
      simp only [mapKeys] at ih
      rw [ih]
      tauto

theorem mem_mapKeys_foldl {α : Type} (l : List (String × α))
    (m : List (String × α)) (t : String) :
    t ∈ mapKeys (l.foldl (fun acc p => mapInsert acc p.1 p.2) m) ↔
      t ∈ mapKeys m ∨ t ∈ mapKeys l := by
  induction l generalizing m with
  | nil => simp [mapKeys]
  | cons p rest ih =>
    rw [List.foldl_cons, ih, mem_mapKeys_mapInsert]
    simp only [mapKeys, List.map_cons, List.mem_cons]
    tauto

theorem mapLookup_foldl_of_not_mem {α : Type} (l : List (String × α))
    (m : List (String × α)) (k : String) (h : k ∉ mapKeys l) :
    mapLookup (l.foldl (fun acc p => mapInsert acc p.1 p.2) m) k =
      mapLookup m k := by
  induction l generalizing m with
  | nil => rfl
  | cons p rest ih =>
    simp only [mapKeys, List.map_cons, List.mem_cons] at h
    push_neg at h
    rw [List.foldl_cons, ih _ (by simpa [mapKeys] using h.2),
      mapLookup_mapInsert_of_ne _ _ _ _ h.1]

theorem mapLookup_foldl_of_mem {α : Type} (l : List (String × α))
    (m : List (String × α)) (k : String) (v : α)
    (hnd : (mapKeys l).Nodup) (hkv : (k, v) ∈ l) :
    mapLookup (l.foldl (fun acc p => mapInsert acc p.1 p.2) m) k = some v := by
  induction l generalizing m with
  | nil => cases hkv
  | cons p rest ih =>
    simp only [mapKeys, List.map_cons, List.nodup_cons] at hnd
    rcases List.mem_cons.mp hkv with heq | hmem
    · subst heq
      rw [List.foldl_cons, mapLookup_foldl_of_not_mem _ _ _ hnd.1,
        mapLookup_mapInsert_self]
    · rw [List.foldl_cons]
      exact ih _ hnd.2 hmem

theorem contains_iff_mem (l : List String) (t : String) :
    l.contains t = true ↔ t ∈ l := by
  simp [List.contains, List.elem_iff]

theorem mem_updateTableOrder (order iter : List String) (t : String) :
    t ∈ updateTableOrder order iter ↔ t ∈ order ∨ t ∈ iter := by
  simp only [updateTableOrder, List.mem_append, List.mem_filter,
    decide_eq_true_eq, contains_iff_mem]
  tauto

theorem nodup_updateTableOrder (order iter : List String)
    (h₁ : order.Nodup) (h₂ : iter.Nodup) :
    (updateTableOrder order iter).Nodup := by
  unfold updateTableOrder
  refine List.Nodup.append h₁ (List.Nodup.filter _ h₂) ?_
  intro t ht₁ ht₂
  simp only [List.mem_filter, decide_eq_true_eq, contains_iff_mem] at ht₂
  exact ht₂.2 ht₁

theorem storeInv_new (c : Config) : StoreInv (New c) :=
  ⟨List.nodup_nil, fun _ => Iff.rfl⟩

/-- Core of the invariant preservation: after replacing the fixtures map by
`newFixtures` (which only gains keys) and running `updateTableOrder` with an
iteration order that enumerates exactly the new keys, the order list is
still duplicate-free and lists exactly the new keys. -/
theorem storeInv_updateTableOrder (f : Fixture)
    (newFixtures : List (String × Table)) (iter : List String)
    (hinv : StoreInv f) (hnd : iter.Nodup)
    (hmono : ∀ t, t ∈ mapKeys f.fixtures → t ∈ mapKeys newFixtures)
    (hmem : ∀ t, t ∈ iter ↔ t ∈ mapKeys newFixtures) :
    (updateTableOrder f.tableOrder iter).Nodup ∧
    (∀ t, t ∈ updateTableOrder f.tableOrder iter ↔ t ∈ mapKeys newFixtures) := by
  refine ⟨nodup_updateTableOrder _ _ hinv.1 hnd, ?_⟩
  intro t
  rw [mem_updateTableOrder]
  constructor
  · rintro (h | h)
    · exact hmono t ((hinv.2 t).mp h)
    · exact (hmem t).mp h
  · intro h
    exact Or.inr ((hmem t).mpr h)

/-- **C1, amended.** For every load (`LoadFromFile`, `LoadFromYAML` and
`LoadFromYAMLWithFilename` all reduce to `LoadFromYAMLWithFilename`), under
the store invariant and for every map iteration order `iter` that enumerates
exactly the keys of the resulting fixtures map: the resulting table order is
the old order with the names not yet present appended at the end — so each
table name appears exactly once, in first-appearance order at load
granularity; but the relative order of several names first appearing in one
multi-table document is the (unspecified) map iteration order, not
necessarily the document's appearance order. -/
theorem c1_tableOrder_after_load (f f' : Fixture) (doc : YamlDoc)
    (filename : String) (iter : List String)
    (hinv : StoreInv f)
    (hok : LoadFromYAMLWithFilename f doc filename iter = .ok f')
    (hnd : iter.Nodup)
    (hmem : ∀ t, t ∈ iter ↔ t ∈ mapKeys f'.fixtures) :
    f'.tableOrder =
      f.tableOrder ++ iter.filter (fun t => ¬ f.tableOrder.contains t) ∧
    StoreInv f' := by
  have singleCase : ∀ rows : Table, doc.asSingle = some rows →
      loadSingleBranch f doc filename iter = .ok f' →
      f'.tableOrder =
        f.tableOrder ++ iter.filter (fun t => ¬ f.tableOrder.contains t) ∧
      StoreInv f' := by
    intro rows hds hok
    simp only [loadSingleBranch, hds] at hok
    by_cases hname : extractTableNameFromFilename filename = ""
    · simp only [if_pos hname] at hok
      cases hok
    · simp only [if_neg hname, Except.ok.injEq] at hok
      subst hok
      refine ⟨rfl, ?_⟩
      have h := storeInv_updateTableOrder f
        (mapInsert f.fixtures (extractTableNameFromFilename filename) rows)
        iter hinv hnd
        (fun t ht => (mem_mapKeys_mapInsert _ _ _ _).mpr (Or.inr ht))
        hmem
      exact ⟨h.1, h.2⟩
  rcases hdm : doc.asMulti with _ | m
  · simp only [LoadFromYAMLWithFilename, hdm] at hok
    rcases hds : doc.asSingle with _ | rows
    · simp only [loadSingleBranch, hds] at hok
      cases hok
    · exact singleCase rows hds hok
  · simp only [LoadFromYAMLWithFilename, hdm] at hok
    by_cases hm : isMultiTableFormat m = true
    · simp only [if_pos hm, Except.ok.injEq] at hok
      subst hok
      simp only [loadMultiTableData] at hmem ⊢
      refine ⟨rfl, ?_⟩
      have h := storeInv_updateTableOrder f
        (m.foldl (fun acc p => mapInsert acc p.1 p.2) f.fixtures)
        iter hinv hnd
        (fun t ht => (mem_mapKeys_foldl _ _ _).mpr (Or.inl ht))
        hmem
      exact ⟨h.1, h.2⟩
    · simp only [if_neg hm] at hok
      rcases hds : doc.asSingle with _ | rows
      · simp only [loadSingleBranch, hds] at hok
        cases hok
      · exact singleCase rows hds hok

/-- **C1, witness for the amended theorem.** A concrete single-table load
appends the new name at the end of the order list. -/
theorem c1_tableOrder_after_load_witness :
    (loadSingleTableData (New ⟨true⟩) "users"
      [[("id", GoValue.int 1)]] ["users"]).tableOrder = ["users"] := by
  have h := c1_tableOrder_after_load (New ⟨true⟩)
    (loadSingleTableData (New ⟨true⟩) "users" [[("id", GoValue.int 1)]]
      ["users"])
    { asMulti := none, asSingle := some [[("id", GoValue.int 1)]] }
    "users.yaml" ["users"] (storeInv_new ⟨true⟩) rfl
    (by simp) (fun t => Iff.rfl)
  exact h.1.trans (by decide)

/-- **C1, counterexample.** Loading the single multi-table document
`multiDocUP` (tables appearing as `users` then `posts`) with the legal map
iteration order `c1Iter` yields `TableOrder() = ["posts", "users"]`, not the
document-appearance order `["users", "posts"]`: the claim that a single
multi-table document yields its tables in document-appearance order is
false, because the Go source derives the order by ranging over a map. -/
theorem c1_counterexample :
    LoadFromYAML NewTestFixture multiDocUP c1Iter = .ok c1Loaded ∧
    List.Perm c1Iter (mapKeys c1Loaded.fixtures) ∧
    c1Loaded.tableOrder = ["posts", "users"] ∧
    ["posts", "users"] ≠ ["users", "posts"] := by
  refine ⟨rfl, by decide, by decide, by decide⟩

/-- **C2.** Decoding policy: the multi-table interpretation is attempted
first, and a successfully decoded non-empty mapping is loaded as multi-table
with every table entry merged into the store; otherwise the single-table
interpretation is attempted: if it fails to parse the load fails with the
decode error, if it parses but no table name can be derived from the
filename the load fails with the name-inference error, and otherwise the
single table is loaded under the derived name. -/
theorem c2_load_decode_policy (f : Fixture) (doc : YamlDoc) (filename : String)
    (iter : List String) :
    (∀ m, doc.asMulti = some m → m ≠ [] →
       LoadFromYAMLWithFilename f doc filename iter =
         .ok (loadMultiTableData f m iter) ∧
       ((mapKeys m).Nodup → ∀ t rows, (t, rows) ∈ m →
          mapLookup (loadMultiTableData f m iter).fixtures t = some rows)) ∧
    ((doc.asMulti = none ∨ doc.asMulti = some []) → doc.asSingle = none →
       LoadFromYAMLWithFilename f doc filename iter =
         .error .decodeError) ∧
    ((doc.asMulti = none ∨ doc.asMulti = some []) →
       ∀ rows, doc.asSingle = some rows →
       extractTableNameFromFilename filename = "" →
       LoadFromYAMLWithFilename f doc filename iter =
         .error .nameInferenceError) ∧
    ((doc.asMulti = none ∨ doc.asMulti = some []) →
       ∀ rows, doc.asSingle = some rows →
       extractTableNameFromFilename filename ≠ "" →
       LoadFromYAMLWithFilename f doc filename iter =
         .ok (loadSingleTableData f (extractTableNameFromFilename filename)
               rows iter)) := by
  refine ⟨?_, ?_, ?_, ?_⟩
  · intro m hdm hne
    have hfmt : isMultiTableFormat m = true := by
      simp [isMultiTableFormat, List.length_pos, hne]
    constructor
    · simp only [LoadFromYAMLWithFilename, hdm, if_pos hfmt]
    · intro hnd t rows hmem
      simp only [loadMultiTableData]
      exact mapLookup_foldl_of_mem m f.fixtures t rows hnd hmem
  · rintro (hdm | hdm) hds <;>
      simp [LoadFromYAMLWithFilename, hdm, loadSingleBranch, hds,
        isMultiTableFormat]
  · rintro (hdm | hdm) rows hds hname <;>
      simp [LoadFromYAMLWithFilename, hdm, loadSingleBranch, hds, hname,
        isMultiTableFormat]
  · rintro (hdm | hdm) rows hds hname <;>
      simp [LoadFromYAMLWithFilename, hdm, loadSingleBranch, hds,
        if_neg hname, isMultiTableFormat]

/-- **C2, witness.** A document that parses under neither interpretation
fails with the decode error. -/
theorem c2_load_decode_policy_witness :
    LoadFromYAML (New ⟨true⟩) { asMulti := none, asSingle := none } [] =
      .error .decodeError :=
  (c2_load_decode_policy (New ⟨true⟩)
    { asMulti := none, asSingle := none } "" []).2.1 (Or.inl rfl) rfl

/-- A duplicate-free list whose only element satisfying `p` is `a` (which it
contains) filters to exactly `[a]`. -/
theorem filter_eq_singleton {l : List String} {p : String → Bool} {a : String}
    (hnd : l.Nodup) (ha : a ∈ l) (hpa : p a = true)
    (hother : ∀ t ∈ l, t ≠ a → p t = false) :
    l.filter p = [a] := by
  induction l with
  | nil => cases ha
  | cons b rest ih =>
    rw [List.nodup_cons] at hnd
    by_cases hb : b = a
    · subst hb
      rw [List.filter_cons_of_pos hpa]
      have : rest.filter p = [] := by
        rw [List.filter_eq_nil_iff]
        intro t ht
        have htb : t ≠ b := fun h => hnd.1 (h ▸ ht)
        simp [hother t (List.mem_cons_of_mem _ ht) htb]
      rw [this]
    · have hmem : a ∈ rest := by
        rcases List.mem_cons.mp ha with h | h
        · exact absurd h.symm hb
        · exact h
      have hpb : p b = false := hother b (List.mem_cons_self b rest) hb
      rw [List.filter_cons_of_neg (by simp [hpb])]
      exact ih hnd.2 hmem
        (fun t ht htn => hother t (List.mem_cons_of_mem _ ht) htn)

/-- **C3.** `Merge` semantics of a single-table load: the row set for the
merged name is replaced by the new rows, all other tables keep their rows;
a name already present keeps the order list (hence its position) unchanged,
and a name not yet present is appended at the end of the order list. -/
theorem c3_merge_semantics (f : Fixture) (tableName : String) (records : Table)
    (iter : List String) (hinv : StoreInv f) (hnd : iter.Nodup)
    (hmem : ∀ t, t ∈ iter ↔
      t ∈ mapKeys (mapInsert f.fixtures tableName records)) :
    mapLookup (loadSingleTableData f tableName records iter).fixtures
      tableName = some records ∧
    (∀ t, t ≠ tableName →
       mapLookup (loadSingleTableData f tableName records iter).fixtures t =
         mapLookup f.fixtures t) ∧
    (tableName ∈ f.tableOrder →
       (loadSingleTableData f tableName records iter).tableOrder =
         f.tableOrder) ∧
    (tableName ∉ f.tableOrder →
       (loadSingleTableData f tableName records iter).tableOrder =
         f.tableOrder ++ [tableName]) := by
  refine ⟨mapLookup_mapInsert_self _ _ _,
    fun t ht => mapLookup_mapInsert_of_ne _ _ _ _ ht, ?_, ?_⟩
  · intro hold
    have hfil : iter.filter (fun t => ¬ f.tableOrder.contains t) = [] := by
      rw [List.filter_eq_nil_iff]
      intro t ht
      have : t ∈ f.tableOrder := by
        rcases (mem_mapKeys_mapInsert _ _ _ _).mp ((hmem t).mp ht) with h | h
        · exact h ▸ hold
        · exact (hinv.2 t).mpr h
      simp [contains_iff_mem, this]
    show updateTableOrder f.tableOrder iter = f.tableOrder
    rw [updateTableOrder, hfil, List.append_nil]
  · intro hnew
    have hfil : iter.filter (fun t => ¬ f.tableOrder.contains t) =
        [tableName] := by
      refine filter_eq_singleton hnd
        ((hmem tableName).mpr
          ((mem_mapKeys_mapInsert _ _ _ _).mpr (Or.inl rfl))) ?_ ?_
      · simp [contains_iff_mem, hnew]
      · intro t ht htn
        have : t ∈ f.tableOrder := by
          rcases (mem_mapKeys_mapInsert _ _ _ _).mp ((hmem t).mp ht) with
            h | h
          · exact absurd h htn
          · exact (hinv.2 t).mpr h
        simp [contains_iff_mem, this]
    show updateTableOrder f.tableOrder iter = f.tableOrder ++ [tableName]
    rw [updateTableOrder, hfil]

/-- `storeUP` satisfies the store invariant. -/
theorem storeInv_storeUP : StoreInv storeUP :=
  ⟨by decide, fun _ => Iff.rfl⟩

/-- **C3, witness.** Re-merging rows for `users`, already first in the
order, replaces its row set and leaves the order list unchanged. -/
theorem c3_merge_semantics_witness :
    mapLookup (loadSingleTableData storeUP "users" [[("id", GoValue.int 9)]]
        ["users", "posts"]).fixtures "users" = some [[("id", GoValue.int 9)]] ∧
    (loadSingleTableData storeUP "users" [[("id", GoValue.int 9)]]
        ["users", "posts"]).tableOrder = ["users", "posts"] := by
  have h := c3_merge_semantics storeUP "users" [[("id", GoValue.int 9)]]
    ["users", "posts"] storeInv_storeUP (by decide) (fun _ => Iff.rfl)
  exact ⟨h.1, (h.2.2.1 (by decide)).trans (by decide)⟩

/-! ### Insertion-engine lemmas -/

theorem insertRows_success (exec : Exec) (tgt : ExecTarget)
    (tableName query : String) (columns : List String) (records : List Row)
    (hok : ∀ q v, exec q v = none) :
    insertRows exec tgt tableName query columns records =
      (records.map (fun r => ⟨tgt, tableName, query, recordValues columns r⟩),
       none) := by
  induction records with
  | nil => rfl
  | cons r rest ih => simp [insertRows, hok, ih]

theorem insertTable_success (exec : Exec) (tgt : ExecTarget)
    (tableName : String) (records : List Row)
    (hok : ∀ q v, exec q v = none) :
    insertTable exec tgt tableName records =
      (tableTrace tgt tableName records, none) := by
  cases records with
  | nil => rfl
  | cons r rest =>
    simp [insertTable, tableTrace, insertRows_success _ _ _ _ _ _ hok]

theorem insertAllTables_success (exec : Exec) (tgt : ExecTarget)
    (fixtures : List (String × Table)) (order : List String)
    (hok : ∀ q v, exec q v = none) :
    insertAllTables exec tgt fixtures order =
      ((order.map (fun t =>
          tableTrace tgt t ((mapLookup fixtures t).getD []))).flatten, none) := by
  induction order with
  | nil => rfl
  | cons t rest ih =>
    by_cases hz : ((mapLookup fixtures t).getD []).length = 0
    · have hempty : (mapLookup fixtures t).getD [] = [] :=
        List.length_eq_zero.mp hz
      simp [insertAllTables, hz, ih, hempty, tableTrace]
    · simp [insertAllTables, hz, insertTable_success _ _ _ _ hok, ih]

/-- **C4.** When the driver accepts every statement, `InsertFixtures`
produces, for each table in order: nothing if its row set is empty,
otherwise one statement shape (columns derived from the first row of the
table's row set, missing columns supplying a null parameter) executed once
per row — and no error. -/
theorem c4_insert_engine (exec : Exec) (f : Fixture)
    (hok : ∀ q v, exec q v = none) :
    InsertFixtures exec f =
      ((f.tableOrder.map (fun t =>
          tableTrace (getExecutor f) t ((mapLookup f.fixtures t).getD []))).flatten,
       none) :=
  insertAllTables_success exec (getExecutor f) f.fixtures f.tableOrder hok

/-- **C4, witness.** A table whose second row misses the `name` column
derived from the first row: both rows are executed, the missing column
passing a null parameter instead of failing. -/
theorem c4_insert_engine_witness :
    InsertFixtures execOkAll storeMissingCol =
      ([⟨.db, "users", "INSERT INTO users (id, name) VALUES (?, ?)",
          [GoValue.int 1, GoValue.str "Alice"]⟩,
        ⟨.db, "users", "INSERT INTO users (id, name) VALUES (?, ?)",
          [GoValue.int 2, GoValue.null]⟩], none) :=
  (c4_insert_engine execOkAll storeMissingCol (fun _ _ => rfl)).trans
    (by decide)

/-- **C5.** With `users` (2 rows) then `posts` (2 rows) loaded in that
order, `InsertFixtures` executes exactly the users statement twice, then
the posts statement twice: one statement shape per table, two executions
each, in table order, never interleaved — and the two shapes differ. -/
theorem c5_two_tables_trace :
    InsertFixtures execOkAll storeUP =
      ([⟨.db, "users", "INSERT INTO users (id, name) VALUES (?, ?)",
          [GoValue.int 1, GoValue.str "Alice"]⟩,
        ⟨.db, "users", "INSERT INTO users (id, name) VALUES (?, ?)",
          [GoValue.int 2, GoValue.str "Bob"]⟩,
        ⟨.db, "posts", "INSERT INTO posts (id, user_id) VALUES (?, ?)",
          [GoValue.int 1, GoValue.int 1]⟩,
        ⟨.db, "posts", "INSERT INTO posts (id, user_id) VALUES (?, ?)",
          [GoValue.int 2, GoValue.int 2]⟩], none) ∧
    "INSERT INTO users (id, name) VALUES (?, ?)" ≠
      "INSERT INTO posts (id, user_id) VALUES (?, ?)" := by
  exact ⟨by decide, by decide⟩

theorem insertRows_none_all_ok (exec : Exec) (tgt : ExecTarget)
    (tableName query : String) (columns : List String) (records : List Row)
    (tr : List ExecEvent)
    (h : insertRows exec tgt tableName query columns records = (tr, none)) :
    ∀ e ∈ tr, exec e.query e.values = none := by
  induction records generalizing tr with
  | nil =>
    injection h with h1 _
    subst h1
    intro e he
    cases he
  | cons r rest ih =>
    rcases hrest : insertRows exec tgt tableName query columns rest with
      ⟨tr2, res2⟩
    simp only [insertRows, hrest] at h
    rcases hx : exec query (recordValues columns r) with _ | msg
    · simp only [hx] at h
      injection h with h1 h2
      subst h1
      intro e he
      rcases List.mem_cons.mp he with he | he
      · subst he; exact hx
      · exact ih tr2 (hrest.trans (by rw [h2])) e he
    · simp only [hx] at h
      injection h with h1 h2
      cases h2

theorem insertTable_none_all_ok (exec : Exec) (tgt : ExecTarget)
    (tableName : String) (records : List Row) (tr : List ExecEvent)
    (h : insertTable exec tgt tableName records = (tr, none)) :
    ∀ e ∈ tr, exec e.query e.values = none := by
  cases records with
  | nil =>
    injection h with h1 _
    subst h1
    intro e he
    cases he
  | cons r rest =>
    exact insertRows_none_all_ok exec tgt tableName _ _ _ tr h

theorem insertRows_error (exec : Exec) (tgt : ExecTarget)
    (tableName query : String) (columns : List String) (records : List Row)
    (tr : List ExecEvent) (err : String)
    (h : insertRows exec tgt tableName query columns records =
      (tr, some err)) :
    ∃ evs ev msg, tr = evs ++ [ev] ∧
      (∀ e ∈ evs, exec e.query e.values = none) ∧
      exec ev.query ev.values = some msg ∧
      err = "レコード挿入エラー: " ++ msg ∧ ev.table = tableName := by
  induction records generalizing tr with
  | nil =>
    simp only [insertRows] at h
    injection h with h1 h2
    cases h2
  | cons r rest ih =>
    rcases hrest : insertRows exec tgt tableName query columns rest with
      ⟨tr2, res2⟩
    simp only [insertRows, hrest] at h
    rcases hx : exec query (recordValues columns r) with _ | msg
    · simp only [hx] at h
      injection h with h1 h2
      subst h1
      obtain ⟨evs, ev, msg, hdec, hsucc, hfail, herr, htbl⟩ :=
        ih tr2 (hrest.trans (by rw [h2]))
      refine ⟨⟨tgt, tableName, query, recordValues columns r⟩ :: evs, ev, msg,
        by rw [hdec]; rfl, ?_, hfail, herr, htbl⟩
      intro e he
      rcases List.mem_cons.mp he with he | he
      · subst he; exact hx
      · exact hsucc e he
    · simp only [hx] at h
      injection h with h1 h2
      subst h1
      refine ⟨[], ⟨tgt, tableName, query, recordValues columns r⟩, msg,
        rfl, ?_, hx, ?_, rfl⟩
      · intro e he
        cases he
      · exact (Option.some.inj h2).symm

theorem insertTable_error (exec : Exec) (tgt : ExecTarget)
    (tableName : String) (records : List Row) (tr : List ExecEvent)
    (err : String)
    (h : insertTable exec tgt tableName records = (tr, some err)) :
    ∃ evs ev msg, tr = evs ++ [ev] ∧
      (∀ e ∈ evs, exec e.query e.values = none) ∧
      exec ev.query ev.values = some msg ∧
      err = "レコード挿入エラー: " ++ msg ∧ ev.table = tableName := by
  cases records with
  | nil =>
    simp only [insertTable] at h
    injection h with h1 h2
    cases h2
  | cons r rest => exact insertRows_error exec tgt tableName _ _ _ tr err h

theorem insertAllTables_error (exec : Exec) (tgt : ExecTarget)
    (fixtures : List (String × Table)) (order : List String)
    (tr : List ExecEvent) (err : String)
    (h : insertAllTables exec tgt fixtures order = (tr, some err)) :
    ∃ evs ev msg, tr = evs ++ [ev] ∧
      (∀ e ∈ evs, exec e.query e.values = none) ∧
      exec ev.query ev.values = some msg ∧
      err = "テーブル " ++ ev.table ++ " への挿入エラー: " ++
        ("レコード挿入エラー: " ++ msg) ∧
      ev.table ∈ order := by
  induction order generalizing tr with
  | nil =>
    simp only [insertAllTables] at h
    injection h with h1 h2
    cases h2
  | cons t rest ih =>
    simp only [insertAllTables] at h
    by_cases hz : ((mapLookup fixtures t).getD []).length = 0
    · simp only [if_pos hz] at h
      obtain ⟨evs, ev, msg, h1, h2, h3, h4, h5⟩ := ih tr h
      exact ⟨evs, ev, msg, h1, h2, h3, h4, List.mem_cons_of_mem _ h5⟩
    · simp only [if_neg hz] at h
      rcases hit : insertTable exec tgt t ((mapLookup fixtures t).getD [])
        with ⟨tr1, res1⟩
      simp only [hit] at h
      cases res1 with
      | some e1 =>
        injection h with h1 h2
        subst h1
        obtain ⟨evs, ev, msg, hdec, hsucc, hfail, herr, htbl⟩ :=
          insertTable_error exec tgt t _ tr1 e1 hit
        have herr2 : err = "テーブル " ++ t ++ " への挿入エラー: " ++ e1 :=
          (Option.some.inj h2).symm
        refine ⟨evs, ev, msg, hdec, hsucc, hfail, ?_, ?_⟩
        · rw [herr2, herr, htbl]
        · rw [htbl]
          exact List.mem_cons_self t rest
      | none =>
        rcases hrest : insertAllTables exec tgt fixtures rest with ⟨tr2, res2⟩
        simp only [hrest] at h
        injection h with h1 h2
        subst h1
        obtain ⟨evs, ev, msg, hdec, hsucc, hfail, herr, htbl⟩ :=
          ih tr2 (hrest.trans (by rw [h2]))
        refine ⟨tr1 ++ evs, ev, msg, by rw [hdec, List.append_assoc], ?_,
          hfail, herr, List.mem_cons_of_mem _ htbl⟩
        intro e he
        rcases List.mem_append.mp he with he | he
        · exact insertTable_none_all_ok exec tgt t _ tr1 hit e he
        · exact hsucc e he

/-- **C6.** Whenever `InsertFixtures` returns an error, the attempted
execution trace consists of successful executions followed by exactly one
failing execution (nothing runs after the first failure), the returned
error wraps the offending table's name around the driver error, and the
offending table is one of the stored tables; the engine issues no recovery
or rollback statements of its own — the trace contains nothing but the
attempted inserts. -/
theorem c6_first_error_abort (exec : Exec) (f : Fixture)
    (tr : List ExecEvent) (err : String)
    (h : InsertFixtures exec f = (tr, some err)) :
    ∃ evs ev msg, tr = evs ++ [ev] ∧
      (∀ e ∈ evs, exec e.query e.values = none) ∧
      exec ev.query ev.values = some msg ∧
      err = "テーブル " ++ ev.table ++ " への挿入エラー: " ++
        ("レコード挿入エラー: " ++ msg) ∧
      ev.table ∈ f.tableOrder :=
  insertAllTables_error exec (getExecutor f) f.fixtures f.tableOrder tr err h

/-- **C6, witness.** With a driver failing on the posts statement, the run
aborts after both users rows and the first posts row, and the error names
`posts`. -/
theorem c6_first_error_abort_witness :
    ∃ evs ev msg,
      ([⟨ExecTarget.db, "users", "INSERT INTO users (id, name) VALUES (?, ?)",
          [GoValue.int 1, GoValue.str "Alice"]⟩,
        ⟨ExecTarget.db, "users", "INSERT INTO users (id, name) VALUES (?, ?)",
          [GoValue.int 2, GoValue.str "Bob"]⟩,
        ⟨ExecTarget.db, "posts",
          "INSERT INTO posts (id, user_id) VALUES (?, ?)",
          [GoValue.int 1, GoValue.int 1]⟩] : List ExecEvent) = evs ++ [ev] ∧
      (∀ e ∈ evs, execFailPosts e.query e.values = none) ∧
      execFailPosts ev.query ev.values = some msg ∧
      "テーブル posts への挿入エラー: レコード挿入エラー: constraint violation" =
        "テーブル " ++ ev.table ++ " への挿入エラー: " ++
          ("レコード挿入エラー: " ++ msg) ∧
      ev.table ∈ storeUP.tableOrder :=
  c6_first_error_abort execFailPosts storeUP _ _ (by decide)

/-! ### Transaction-protocol theorems -/

/-- **C7.** Calling `BeginTransaction` while a transaction is already open
fails with the already-active state error and returns the state completely
unchanged — same transaction handle, same fixtures, same order, same
configuration — whatever the driver would have answered. -/
theorem c7_begin_while_active (f : Fixture) (h : TxHandle)
    (hactive : f.tx = some h) (beginResult : Except String TxHandle) :
    BeginTransaction f beginResult =
      (f, some "すでにトランザクションが開始されています") := by
  simp only [BeginTransaction, hactive]

/-- **C7, witness.** Beginning again on a store holding transaction 1 fails
and leaves the state untouched, even though the driver offered handle 2. -/
theorem c7_begin_while_active_witness :
    BeginTransaction { NewTestFixture with tx := some 1 } (.ok 2) =
      ({ NewTestFixture with tx := some 1 },
       some "すでにトランザクションが開始されています") :=
  c7_begin_while_active { NewTestFixture with tx := some 1 } 1 rfl (.ok 2)

/-- **C8.** `CommitTransaction` and `RollbackTransaction` fail with the
no-active-transaction state error (leaving the state unchanged) when no
transaction is open; when one is open, both clear the stored transaction
handle unconditionally — the scope is closed exactly once per begin — and
return the driver's verdict, even when that verdict is an error. -/
theorem c8_commit_rollback_protocol (f : Fixture) (r : Option String) :
    (f.tx = none →
       CommitTransaction f r =
         (f, some "トランザクションが開始されていません") ∧
       RollbackTransaction f r =
         (f, some "トランザクションが開始されていません")) ∧
    (∀ h : TxHandle, f.tx = some h →
       CommitTransaction f r = ({ f with tx := none }, r) ∧
       RollbackTransaction f r = ({ f with tx := none }, r)) := by
  constructor
  · intro hidle
    constructor <;> simp [CommitTransaction, RollbackTransaction, hidle]
  · intro h hactive
    constructor <;> simp [CommitTransaction, RollbackTransaction, hactive]

/-- **C8, witness.** With transaction 1 open and a driver whose commit
reports an error, committing still clears the handle and surfaces the
driver error; a second rollback then fails with the state error. -/
theorem c8_commit_rollback_protocol_witness :
    CommitTransaction { NewTestFixture with tx := some 1 }
        (some "commit failed") =
      (NewTestFixture, some "commit failed") ∧
    RollbackTransaction NewTestFixture (some "ignored") =
      (NewTestFixture, some "トランザクションが開始されていません") := by
  constructor
  · exact ((c8_commit_rollback_protocol { NewTestFixture with tx := some 1 }
      (some "commit failed")).2 1 rfl).1.trans (by decide)
  · exact ((c8_commit_rollback_protocol NewTestFixture
      (some "ignored")).1 rfl).2

/-! ### Lifecycle theorems -/

/-- **C9, amended.** With a fresh scope available (Idle state, driver begin
returning handle `h`): `WithTransaction` runs Begin, then fixture
insertion, then the test callback; it rolls back explicitly (in every mode)
when insertion or the callback fails, returning that error; after a fully
successful run it rolls back in the deferred finalizer in auto-cleanup mode
and commits in non-auto-cleanup mode. `RunTestWithSetup` in auto-cleanup
mode always ends Idle with a driver rollback in the guaranteed finalizer,
whatever aborts; but in non-auto-cleanup mode it neither commits nor rolls
back — the scope is left open (the claim's commit clause holds only for
`WithTransaction`; the test helper's public constructor always enables
auto-cleanup). -/
theorem c9_lifecycle (f : Fixture) (dr : Driver) (h : TxHandle)
    (hidle : f.tx = none) (hbegin : dr.beginResult = .ok h) :
    (∀ e fnResult,
       (InsertFixtures dr.exec { f with tx := some h }).2 = some e →
       WithTransaction f dr fnResult =
         ⟨f, some e,
          .beginTx h ::
            (InsertFixtures dr.exec { f with tx := some h }).1.map
              RunEvent.stmt ++ [.rollbackTx h]⟩) ∧
    (∀ e,
       (InsertFixtures dr.exec { f with tx := some h }).2 = none →
       WithTransaction f dr (some e) =
         ⟨f, some e,
          .beginTx h ::
            (InsertFixtures dr.exec { f with tx := some h }).1.map
              RunEvent.stmt ++ [.testCall, .rollbackTx h]⟩) ∧
    ((InsertFixtures dr.exec { f with tx := some h }).2 = none →
       f.autoRollback = true →
       WithTransaction f dr none =
         ⟨f, none,
          .beginTx h ::
            (InsertFixtures dr.exec { f with tx := some h }).1.map
              RunEvent.stmt ++ [.testCall, .rollbackTx h]⟩) ∧
    ((InsertFixtures dr.exec { f with tx := some h }).2 = none →
       f.autoRollback = false →
       WithTransaction f dr none =
         ⟨f, dr.commitResult,
          .beginTx h ::
            (InsertFixtures dr.exec { f with tx := some h }).1.map
              RunEvent.stmt ++ [.testCall, .commitTx h]⟩) ∧
    (f.autoRollback = true → ∀ hasSetup setupAborts testAborts : Bool,
       (RunTestWithSetup f dr hasSetup setupAborts testAborts).state.tx =
         none ∧
       RunEvent.rollbackTx h ∈
         (RunTestWithSetup f dr hasSetup setupAborts testAborts).events) ∧
    (f.autoRollback = false → ∀ hasSetup setupAborts testAborts : Bool,
       (RunTestWithSetup f dr hasSetup setupAborts testAborts).state.tx =
         some h ∧
       ∀ ev ∈ (RunTestWithSetup f dr hasSetup setupAborts testAborts).events,
         ∀ g : TxHandle, ev ≠ .commitTx g ∧ ev ≠ .rollbackTx g) := by
  obtain ⟨tx0, ord, fx, ar⟩ := f
  simp only at hidle
  subst hidle
  refine ⟨?_, ?_, ?_, ?_, ?_, ?_⟩
  · intro e fnResult hins
    rcases hrun : InsertFixtures dr.exec ⟨some h, ord, fx, ar⟩ with ⟨tr, res⟩
    rw [hrun] at hins
    simp only at hins
    subst hins
    simp [WithTransaction, BeginTransaction, hbegin, hrun,
      RollbackTransaction, deferredRollback]
  · intro e hins
    rcases hrun : InsertFixtures dr.exec ⟨some h, ord, fx, ar⟩ with ⟨tr, res⟩
    rw [hrun] at hins
    simp only at hins
    subst hins
    simp [WithTransaction, BeginTransaction, hbegin, hrun,
      RollbackTransaction, deferredRollback]
  · intro hins har
    simp only at har
    subst har
    rcases hrun : InsertFixtures dr.exec ⟨some h, ord, fx, true⟩ with ⟨tr, res⟩
    rw [hrun] at hins
    simp only at hins
    subst hins
    simp [WithTransaction, BeginTransaction, hbegin, hrun,
      RollbackTransaction, deferredRollback]
  · intro hins har
    simp only at har
    subst har
    rcases hrun : InsertFixtures dr.exec ⟨some h, ord, fx, false⟩ with ⟨tr, res⟩
    rw [hrun] at hins
    simp only at hins
    subst hins
    simp [WithTransaction, BeginTransaction, hbegin, hrun,
      CommitTransaction, deferredRollback]
  · intro har hasSetup setupAborts testAborts
    simp only at har
    subst har
    rcases hrun : InsertFixtures dr.exec ⟨some h, ord, fx, true⟩ with ⟨tr, res⟩
    by_cases hs : hasSetup = true ∧ setupAborts = true
    · constructor <;>
        simp [RunTestWithSetup, BeginTransaction, hbegin, hs,
          deferredRollback, RollbackTransaction]
    · cases res with
      | some e =>
        constructor <;>
          simp [RunTestWithSetup, BeginTransaction, hbegin, hs, hrun,
            deferredRollback, RollbackTransaction]
      | none =>
        constructor <;>
          simp [RunTestWithSetup, BeginTransaction, hbegin, hs, hrun,
            deferredRollback, RollbackTransaction]
  · intro har hasSetup setupAborts testAborts
    simp only at har
    subst har
    rcases hrun : InsertFixtures dr.exec ⟨some h, ord, fx, false⟩ with ⟨tr, res⟩
    by_cases hs : hasSetup = true ∧ setupAborts = true
    · constructor
      · simp [RunTestWithSetup, BeginTransaction, hbegin, hs,
          deferredRollback]
      · intro ev hev g
        constructor <;> rintro rfl <;>
          simp [RunTestWithSetup, BeginTransaction, hbegin, hs,
            deferredRollback] at hev
    · cases res with
      | some e =>
        constructor
        · simp [RunTestWithSetup, BeginTransaction, hbegin, hs, hrun,
            deferredRollback]
        · intro ev hev g
          constructor <;> rintro rfl <;>
            simp [RunTestWithSetup, BeginTransaction, hbegin, hs, hrun,
              deferredRollback] at hev
      | none =>
        constructor
        · simp [RunTestWithSetup, BeginTransaction, hbegin, hs, hrun,
            deferredRollback]
        · intro ev hev g
          constructor <;> rintro rfl <;>
            simp [RunTestWithSetup, BeginTransaction, hbegin, hs, hrun,
              deferredRollback] at hev

/-- **C9, witness for the amended theorem.** A concrete non-auto-cleanup
`WithTransaction` run with a successful callback: begin, test callback,
then commit, ending Idle with no error. -/
theorem c9_lifecycle_witness :
    WithTransaction (New ⟨false⟩) driverOk none =
      ⟨New ⟨false⟩, none, [.beginTx 1, .testCall, .commitTx 1]⟩ :=
  ((c9_lifecycle (New ⟨false⟩) driverOk 1 rfl rfl).2.2.2.1 rfl rfl).trans
    (by decide)

/-- **C9, counterexample.** `RunTestWithSetup` configured without
auto-cleanup, with a successful setup-less run: the run completes without
fatal error, yet the scope is left open (`tx` still holds handle 1) and the
events contain neither a commit nor a rollback — contradicting the claim
that in non-auto-cleanup mode the scope is committed after a successful
test callback: the test helper has no commit path at all. -/
theorem c9_counterexample :
    RunTestWithSetup (New ⟨false⟩) driverOk false false false =
      ⟨⟨some 1, [], [], false⟩, none, [.beginTx 1, .testCall]⟩ ∧
    RunEvent.commitTx 1 ∉ [RunEvent.beginTx 1, RunEvent.testCall] ∧
    RunEvent.rollbackTx 1 ∉ [RunEvent.beginTx 1, RunEvent.testCall] := by
  exact ⟨by decide, by decide, by decide⟩

/-! ### Idle-state execution surface (C10) -/

theorem insertRows_targets (exec : Exec) (tgt : ExecTarget)
    (tableName query : String) (columns : List String) (records : List Row) :
    ∀ e ∈ (insertRows exec tgt tableName query columns records).1,
      e.target = tgt := by
  induction records with
  | nil => intro e he; cases he
  | cons r rest ih =>
    intro e he
    rcases hrest : insertRows exec tgt tableName query columns rest with
      ⟨tr2, res2⟩
    simp only [insertRows, hrest] at he
    rcases hx : exec query (recordValues columns r) with _ | msg <;>
      simp only [hx] at he
    · rcases List.mem_cons.mp he with he | he
      · subst he; rfl
      · exact ih e (by rw [hrest]; exact he)
    · rcases List.mem_singleton.mp he with rfl
      rfl

theorem insertTable_targets (exec : Exec) (tgt : ExecTarget)
    (tableName : String) (records : List Row) :
    ∀ e ∈ (insertTable exec tgt tableName records).1, e.target = tgt := by
  cases records with
  | nil => intro e he; cases he
  | cons r rest => exact insertRows_targets exec tgt tableName _ _ _

theorem insertAllTables_targets (exec : Exec) (tgt : ExecTarget)
    (fixtures : List (String × Table)) (order : List String) :
    ∀ e ∈ (insertAllTables exec tgt fixtures order).1, e.target = tgt := by
  induction order with
  | nil => intro e he; cases he
  | cons t rest ih =>
    intro e he
    simp only [insertAllTables] at he
    by_cases hz : ((mapLookup fixtures t).getD []).length = 0
    · simp only [if_pos hz] at he
      exact ih e he
    · simp only [if_neg hz] at he
      rcases hit : insertTable exec tgt t ((mapLookup fixtures t).getD [])
        with ⟨tr1, res1⟩
      simp only [hit] at he
      cases res1 with
      | some e1 =>
        exact insertTable_targets exec tgt t _ e (by rw [hit]; exact he)
      | none =>
        rcases List.mem_append.mp he with he | he
        · exact insertTable_targets exec tgt t _ e (by rw [hit]; exact he)
        · exact ih e he

/-- **C10.** While Idle (`tx == nil`), the execution surface chosen by
`getExecutor` is the raw database connection, not an error: `InsertFixtures`
runs every statement directly against the database (and succeeds whenever
the driver does — no state error), the legacy passthroughs
`ExecInTransaction` / `QueryInTransaction` / `QueryRowInTransaction`
likewise execute against the database, and `CleanUp` returns nil without
rolling anything back. -/
theorem c10_idle_surface (f : Fixture) (hidle : f.tx = none) :
    getExecutor f = .db ∧
    (∀ exec : Exec, ∀ e ∈ (InsertFixtures exec f).1, e.target = .db) ∧
    (∀ exec : Exec, (∀ q v, exec q v = none) →
       (InsertFixtures exec f).2 = none) ∧
    (∀ (exec : Exec) (q : String) (args : List GoValue),
       (ExecInTransaction f exec q args).1 = .db) ∧
    (∀ (qv : Exec) (q : String) (args : List GoValue),
       (QueryInTransaction f qv q args).1 = .db) ∧
    (∀ (q : String) (args : List GoValue),
       QueryRowInTransaction f q args = .db) ∧
    (∀ r : Option String, CleanUp f r = (f, none)) := by
  have hexec : getExecutor f = .db := by simp [getExecutor, hidle]
  refine ⟨hexec, ?_, ?_, ?_, ?_, ?_, ?_⟩
  · intro exec e he
    rw [InsertFixtures, hexec] at he
    exact insertAllTables_targets exec .db f.fixtures f.tableOrder e he
  · intro exec hok
    rw [InsertFixtures, insertAllTables_success _ _ _ _ hok]
  · intro exec q args
    rcases hx : exec q args with _ | msg <;>
      simp [ExecInTransaction, hexec, hx]
  · intro qv q args
    rcases hx : qv q args with _ | msg <;>
      simp [QueryInTransaction, hexec, hx]
  · intro q args
    exact hexec
  · intro r
    simp [CleanUp, hidle]

/-- **C10, witness.** On the idle store `storeUP`: the database surface is
chosen, a statement goes to the database, and cleanup is a no-op. -/
theorem c10_idle_surface_witness :
    getExecutor storeUP = .db ∧
    (ExecInTransaction storeUP execOkAll "SELECT 1" []).1 = .db ∧
    CleanUp storeUP (some "ignored") = (storeUP, none) := by
  have h := c10_idle_surface storeUP rfl
  exact ⟨h.1, h.2.2.2.1 execOkAll "SELECT 1" [], h.2.2.2.2.2.2 (some "ignored")⟩

end Yamlfix
